import Mathlib

/-!
Shallow embedding of `app.py` (exam-duty-tracker): the schedule parser
`parse_schedule`, the room/invigilator segmenter `parse_room_assignments`,
the code extractor `extract_invigilator_codes` and the duty query
`find_invigilator_duties`, together with theorems checking the
natural-language specification against this code.

Strings are modelled as `List Char`; each Python regex used by the code is
embedded as a deterministic matcher whose backtracking behaviour was derived
from the pattern (every quantifier in these patterns ranges over a single
character class, so greedy/lazy backtracking collapses to explicit
maximal/minimal run computations).
-/

namespace ExamDuty

/-- ASCII whitespace, the characters matched by Python `\s` / `str.strip()`. -/
def isWS (c : Char) : Bool :=
  c = ' ' || c = '\t' || c = '\n' || c = '\r' || c = '\x0b' || c = '\x0c'

/-- Decimal digit, Python `\d`. -/
def isDigitC (c : Char) : Bool := '0' ≤ c && c ≤ '9'

/-- Uppercase ASCII letter, `[A-Z]`. -/
def isUpperC (c : Char) : Bool := 'A' ≤ c && c ≤ 'Z'

/-- Lowercase ASCII letter, `[a-z]`. -/
def isLowerC (c : Char) : Bool := 'a' ≤ c && c ≤ 'z'

/-- ASCII letter, `[A-Za-z]`. -/
def isAlphaC (c : Char) : Bool := isUpperC c || isLowerC c

/-- Python word character `\w` (ASCII): letter, digit or underscore. -/
def isWordC (c : Char) : Bool := isAlphaC c || isDigitC c || c = '_'

/-- Python `str.upper()` on one ASCII character. -/
def pyUpperC (c : Char) : Char :=
  if isLowerC c then Char.ofNat (c.toNat - 32) else c

/-- Python `str.upper()` on a character list. -/
def pyUpperL (s : List Char) : List Char := s.map pyUpperC

/-- Python `str.upper()` on a `String`. -/
def pyUpperS (s : String) : String := (pyUpperL s.data).asString

/-- Length of the run of characters satisfying `p` at the head of `s`. -/
def runLen (p : Char → Bool) (s : List Char) : Nat := (s.takeWhile p).length

/-- Python `str.strip()`: remove leading and trailing whitespace. -/
def pyStrip (s : List Char) : List Char :=
  (((s.dropWhile isWS).reverse.dropWhile isWS)).reverse

/-- Python `needle in hay` substring test. -/
def containsSub (needle : List Char) : List Char → Bool
  | [] => needle.isEmpty
  | c :: rest => needle.isPrefixOf (c :: rest) || containsSub needle rest

/-- Helper for Python `str.split()`: words are maximal runs of non-whitespace. -/
def splitWSAux : List Char → List Char → List (List Char)
  | acc, [] => if acc.isEmpty then [] else [acc.reverse]
  | acc, c :: rest =>
    if isWS c then
      if acc.isEmpty then splitWSAux [] rest else acc.reverse :: splitWSAux [] rest
    else splitWSAux (c :: acc) rest

/-- Python `str.split()` with no argument: split on whitespace runs, dropping empties. -/
def splitWS (s : List Char) : List (List Char) := splitWSAux [] s

/-- Helper for Python `str.split('\n')`. -/
def splitNLAux : List Char → List Char → List (List Char)
  | acc, [] => [acc.reverse]
  | acc, c :: rest =>
    if c = '\n' then acc.reverse :: splitNLAux [] rest else splitNLAux (c :: acc) rest

/-- Python `text.split('\n')`: split on newlines, keeping empty pieces. -/
def splitNL (s : List Char) : List (List Char) := splitNLAux [] s

/-- Match exactly three digits at the head of `s` (regex `\d{3}`),
returning the digits and the remainder. -/
def take3digits : List Char → Option (List Char × List Char)
  | a :: b :: c :: rest =>
    if isDigitC a && isDigitC b && isDigitC c then some ([a, b, c], rest) else none
  | _ => none

/-- Generic driver for `re.findall`/`re.finditer`: try the positional matcher `m`
at every position, left to right; on a match emit its payload and continue after
the match (advancing one character on a zero-width match, as Python does).
Recursion is on a fuel bound; since every step either moves past a match
(strictly shortening the text) or advances one character, the initial fuel
`length + 1` supplied by `scanGen` is never exhausted. -/
def scanGenAux (m : List Char → Option (α × List Char)) : Nat → List Char → List α
  | 0, _ => []
  | _ + 1, [] =>
    (match m [] with
     | some (a, _) => [a]
     | none => [])
  | fuel + 1, c :: rest =>
    match m (c :: rest) with
    | some (a, after) =>
      a :: (if after.length < (c :: rest).length then scanGenAux m fuel after
            else scanGenAux m fuel rest)
    | none => scanGenAux m fuel rest

/-- Scan driver at its canonical fuel. -/
def scanGen (m : List Char → Option (α × List Char)) (s : List Char) : List α :=
  scanGenAux m (s.length + 1) s

/-- Generic driver for `re.sub` with a fixed replacement: non-matching characters
pass through, each match is replaced by `repl` (advancing one character on a
zero-width match, as Python does).  Fueled like `scanGenAux`. -/
def subGenAux (m : List Char → Option (List Char)) (repl : List Char) :
    Nat → List Char → List Char
  | 0, s => s
  | _ + 1, [] =>
    (match m [] with
     | some _ => repl
     | none => [])
  | fuel + 1, c :: rest =>
    match m (c :: rest) with
    | some after =>
      repl ++ (if after.length < (c :: rest).length then subGenAux m repl fuel after
               else c :: subGenAux m repl fuel rest)
    | none => c :: subGenAux m repl fuel rest

/-- Substitution driver at its canonical fuel. -/
def subGen (m : List Char → Option (List Char)) (repl : List Char) (s : List Char) :
    List Char :=
  subGenAux m repl (s.length + 1) s

/-- Driver for `re.findall` of patterns that use word boundaries `\b`: the
matcher also receives whether the previous character is a word character, and
reports that flag for the last character it consumed (all such patterns here
consume at least one character on success).  Fueled like `scanGenAux`. -/
def scanBndAux (m : Bool → List Char → Option (α × Bool × List Char)) :
    Nat → Bool → List Char → List α
  | 0, _, _ => []
  | _ + 1, _, [] => []
  | fuel + 1, pw, c :: rest =>
    match m pw (c :: rest) with
    | some (a, lastW, after) =>
      a :: (if after.length < (c :: rest).length then scanBndAux m fuel lastW after
            else scanBndAux m fuel (isWordC c) rest)
    | none => scanBndAux m fuel (isWordC c) rest

/-- Boundary-aware scan driver at its canonical fuel. -/
def scanBnd (m : Bool → List Char → Option (α × Bool × List Char)) (pw : Bool)
    (s : List Char) : List α :=
  scanBndAux m (s.length + 1) pw s

/-- Character class `[0-9:apm\-\s()]` from the `Time:` capture. -/
def isTimeC (c : Char) : Bool :=
  isDigitC c || c = ':' || c = 'a' || c = 'p' || c = 'm' || c = '-' || isWS c ||
    c = '(' || c = ')'

/-- Match `\d{2}/\d{2}/\d{4}` at the head of `s`, returning the ten matched
characters and the remainder. -/
def takeDateLit : List Char → Option (List Char × List Char)
  | a :: b :: '/' :: c :: d :: '/' :: e :: f :: g :: h :: rest =>
    if isDigitC a && isDigitC b && isDigitC c && isDigitC d && isDigitC e &&
        isDigitC f && isDigitC g && isDigitC h then
      some ([a, b, '/', c, d, '/', e, f, g, h], rest)
    else none
  | _ => none

/-- Lazy scan for `.*?\s+Time:` after the date literal: find the smallest
number of (non-newline) filler characters such that a whitespace run followed
by the literal `Time:` starts there.  Returns the filler characters (part of
capture group 1) and the text after `Time:`. -/
def dtScan : List Char → List Char → Option (List Char × List Char)
  | acc, s =>
    let v := runLen isWS s
    if 0 < v && ("Time:".data.isPrefixOf (s.drop v)) then
      some (acc.reverse, (s.drop v).drop 5)
    else
      match s with
      | [] => none
      | c :: rest => if c = '\n' then none else dtScan (c :: acc) rest

/-- Capture group 2 of the date/time pattern, `\s*([0-9:apm\-\s()]+)` with the
group greedy: after a maximal whitespace run, if a class character follows the
group is the maximal class run; otherwise greedy `\s*` backtracks by one and
the group captures that single whitespace character. -/
def dtTimeGroup (s : List Char) : Option (List Char) :=
  let w := runLen isWS s
  let s2 := s.drop w
  match s2 with
  | c :: _ =>
    if isTimeC c then some (s2.takeWhile isTimeC)
    else
      match (s.take w).reverse with
      | d :: _ => some [d]
      | [] => none
  | [] =>
    match (s.take w).reverse with
    | d :: _ => some [d]
    | [] => none

/-- Tail of the date/time pattern after the literal `Date:`:
`\s*(\d{2}/\d{2}/\d{4}.*?)\s+Time:\s*([0-9:apm\-\s()]+)`.  Returns the two
capture groups (unstripped). -/
def dtTail (s : List Char) : Option (List Char × List Char) :=
  let s1 := s.dropWhile isWS
  match takeDateLit s1 with
  | none => none
  | some (date10, s2) =>
    match dtScan [] s2 with
    | none => none
    | some (extra, s3) =>
      match dtTimeGroup s3 with
      | none => none
      | some g2 => some (date10 ++ extra, g2)

/-- Embedding of `re.search(r'Date:\s*(\d{2}/\d{2}/\d{4}.*?)\s+Time:\s*([0-9:apm\-\s()]+)', line)`
(app.py line 23): try each position left to right; a match must start with the
literal `Date:`. -/
def dateTimeSearch : List Char → Option (List Char × List Char)
  | [] => none
  | c :: rest =>
    if "Date:".data.isPrefixOf (c :: rest) then
      match dtTail ((c :: rest).drop 5) with
      | some r => some r
      | none => dateTimeSearch rest
    else dateTimeSearch rest

/-- Embedding of `re.match(r'^([A-Z]{2,4}\s*\d{3})\s+(.+)', line)` (app.py
line 36), returning capture groups 1 and 2.  The uppercase run and the
whitespace run are forced to be maximal (a shorter choice leaves a character
that the following atom rejects); `\s+(.+)` takes the maximal whitespace run
unless that leaves nothing for `.+`, in which case greedy `\s+` gives back one
whitespace character (which must not be a newline). -/
def courseMatch (s : List Char) : Option (List Char × List Char) :=
  let a := runLen isUpperC s
  if 2 ≤ a && a ≤ 4 then
    let s1 := s.drop a
    let w := runLen isWS s1
    match take3digits (s1.drop w) with
    | none => none
    | some (_, s3) =>
      let v := runLen isWS s3
      match courseMatchTail v s3 with
      | none => none
      | some g2 => some (s.take (a + w + 3), g2)
  else none
where
  /-- Find the largest `k ≤ v`, `k ≥ 1`, such that dropping `k` whitespace
  characters leaves a non-newline character for `.+`; the capture is the
  maximal non-newline run there. -/
  courseMatchTail : Nat → List Char → Option (List Char)
  | 0, _ => none
  | k + 1, s3 =>
    match s3.drop (k + 1) with
    | c :: rest => if c = '\n' then courseMatchTail k s3 else some (c :: rest.takeWhile (· ≠ '\n'))
    | [] => courseMatchTail k s3

/-- Embedding of `re.match(r'^[A-Z]{2,4}\s*\d{3}\s+', next_line)` (app.py
line 57) as a Boolean test. -/
def courseStartTest (s : List Char) : Bool :=
  let a := runLen isUpperC s
  (2 ≤ a && a ≤ 4) &&
    (let s1 := s.drop a
     match take3digits (s1.drop (runLen isWS s1)) with
     | some (_, s3) => 0 < runLen isWS s3
     | none => false)

/-- Branch `\s+[A-Z]{2,4}-\d+` of the title boundary pattern, as a test at one
position. -/
def titleBranchProg (s : List Char) : Bool :=
  0 < runLen isWS s &&
    (let s1 := s.dropWhile isWS
     let a := runLen isUpperC s1
     (2 ≤ a && a ≤ 4) &&
       (match s1.drop a with
        | '-' :: d :: _ => isDigitC d
        | _ => false))

/-- Branch `\s+\d{3}\s*\(` of the title boundary pattern, as a test at one
position. -/
def titleBranchRoom (s : List Char) : Bool :=
  0 < runLen isWS s &&
    (match take3digits (s.dropWhile isWS) with
     | some (_, s2) =>
       (match s2.dropWhile isWS with
        | '(' :: _ => true
        | _ => false)
     | none => false)

/-- Embedding of `re.search(r'^(.*?)(?:\s+[A-Z]{2,4}-\d+|\s+\d{3}\s*\()', remaining_text)`
(app.py line 42): anchored at the start, the lazy group grows one non-newline
character at a time until one of the two boundary branches matches; returns
capture group 1. -/
def titleScan : List Char → List Char → Option (List Char)
  | acc, s =>
    if titleBranchProg s || titleBranchRoom s then some acc.reverse
    else
      match s with
      | [] => none
      | c :: rest => if c = '\n' then none else titleScan (c :: acc) rest

/-- Character class `[A-Za-z0-9+\s]` of the invigilator-text capture in the
Strategy A room pattern. -/
def isInvigC (c : Char) : Bool := isAlphaC c || isDigitC c || c = '+' || isWS c

/-- Lookahead `(?=\s+\d{3}\s*\(|\s+[A-Z]{2,4}-\d+|$)` of the Strategy A room
pattern (Python `$` also matches just before a final newline). -/
def lookRoomPat (s : List Char) : Bool :=
  (0 < runLen isWS s &&
    (let s1 := s.dropWhile isWS
     (match take3digits s1 with
      | some (_, s2) =>
        (match s2.dropWhile isWS with
         | '(' :: _ => true
         | _ => false)
      | none => false)
     ||
     (let a := runLen isUpperC s1
      (2 ≤ a && a ≤ 4) &&
        (match s1.drop a with
         | '-' :: d :: _ => isDigitC d
         | _ => false))))
  || s.isEmpty || s = ['\n']

/-- Lazy part `[A-Za-z0-9+\s]*?` of the Strategy A capture group 2: grow the
group one class character at a time until the lookahead holds; returns the
grown characters and the remainder (where the next scan resumes). -/
def lazyInvig : List Char → List Char → Option (List Char × List Char)
  | acc, s =>
    if lookRoomPat s then some (acc.reverse, s)
    else
      match s with
      | [] => none
      | c :: rest => if isInvigC c then lazyInvig (c :: acc) rest else none

/-- Positional matcher for the Strategy A room pattern (app.py line 84):
`(\d{3})\s*\([^)]+\)[^A-Z]*([A-Z][A-Za-z0-9+\s]*?)(?=\s+\d{3}\s*\(|\s+[A-Z]{2,4}-\d+|$)`.
Returns (group 1, group 2, remainder after the match). -/
def matchRoomPat (s : List Char) : Option ((List Char × List Char) × List Char) :=
  match take3digits s with
  | none => none
  | some (room, s1) =>
    match s1.dropWhile isWS with
    | '(' :: s3 =>
      let inner := s3.takeWhile (· ≠ ')')
      if inner.isEmpty then none
      else
        match s3.drop inner.length with
        | ')' :: s4 =>
          let s5 := s4.dropWhile (fun c => !isUpperC c)
          match s5 with
          | c :: s6 =>
            if isUpperC c then
              match lazyInvig [] s6 with
              | some (body, after) => some ((room, c :: body), after)
              | none => none
            else none
          | [] => none
        | _ => none
    | _ => none

/-- Positional matcher for `\b(\d{3})\b` (app.py line 102): a three-digit run
with a word boundary on each side.  The last consumed character is a digit,
hence a word character. -/
def matchRoomTok (pw : Bool) (s : List Char) : Option (List Char × Bool × List Char) :=
  if pw then none
  else
    match take3digits s with
    | some (room, rest) =>
      (match rest with
       | c :: _ => if isWordC c then none else some (room, true, rest)
       | [] => some (room, true, rest))
    | none => none

/-- Positional matcher for `\b([A-Za-z]{2,4}\d{0,2})\b` (app.py line 159): a
letter run of length 2–4 (a longer run cannot satisfy the trailing boundary)
followed by at most two digits, with word boundaries on both sides.  The last
consumed character is a letter or a digit, hence a word character. -/
def matchCodeTok (pw : Bool) (s : List Char) : Option (List Char × Bool × List Char) :=
  if pw then none
  else
    let letters := s.takeWhile isAlphaC
    let L := letters.length
    if 2 ≤ L && L ≤ 4 then
      let s1 := s.drop L
      let digits := s1.takeWhile isDigitC
      if digits.length ≤ 2 then
        let s2 := s1.drop digits.length
        match s2 with
        | c :: _ => if isWordC c then none else some (letters ++ digits, true, s2)
        | [] => some (letters ++ digits, true, s2)
      else none
    else none

/-- Positional matcher for `[A-Z]{2,4}-\d+\(\d+\)` (app.py line 106). -/
def matchProgParen (s : List Char) : Option (List Char) :=
  let a := runLen isUpperC s
  if 2 ≤ a && a ≤ 4 then
    match s.drop a with
    | '-' :: s1 =>
      let d := s1.takeWhile isDigitC
      if d.isEmpty then none
      else
        match s1.drop d.length with
        | '(' :: s2 =>
          let e := s2.takeWhile isDigitC
          if e.isEmpty then none
          else
            match s2.drop e.length with
            | ')' :: s3 => some s3
            | _ => none
        | _ => none
    | _ => none
  else none

/-- Positional matcher for `\d{3}\s*\([^)]+\)[0-9\-+rest\s]*` (app.py
line 107); the trailing class contains digits, `-`, `+`, the letters of
`rest`, and whitespace. -/
def matchRoomInfo (s : List Char) : Option (List Char) :=
  match take3digits s with
  | none => none
  | some (_, s1) =>
    match s1.dropWhile isWS with
    | '(' :: s3 =>
      let inner := s3.takeWhile (· ≠ ')')
      if inner.isEmpty then none
      else
        match s3.drop inner.length with
        | ')' :: s4 =>
          some (s4.dropWhile (fun c =>
            isDigitC c || c = '-' || c = '+' || c = 'r' || c = 'e' || c = 's' ||
              c = 't' || isWS c))
        | _ => none
    | _ => none

/-- Positional matcher for `\d{7,}` (app.py lines 108 and 152). -/
def matchLongId (s : List Char) : Option (List Char) :=
  let d := s.takeWhile isDigitC
  if 7 ≤ d.length then some (s.drop d.length) else none

/-- Positional matcher for `[A-Z]{2,4}-\d+` (app.py line 153). -/
def matchProgCode (s : List Char) : Option (List Char) :=
  let a := runLen isUpperC s
  if 2 ≤ a && a ≤ 4 then
    match s.drop a with
    | '-' :: s1 =>
      let d := s1.takeWhile isDigitC
      if d.isEmpty then none else some (s1.drop d.length)
    | _ => none
  else none

/-- Positional matcher for `\(\d+\)` (app.py line 154). -/
def matchCapacity (s : List Char) : Option (List Char) :=
  match s with
  | '(' :: s1 =>
    let d := s1.takeWhile isDigitC
    if d.isEmpty then none
    else
      match s1.drop d.length with
      | ')' :: s2 => some s2
      | _ => none
  | _ => none

/-- Positional matcher for `\d{3}` (app.py line 155): any three consecutive
digits. -/
def match3dig (s : List Char) : Option (List Char) :=
  match take3digits s with
  | some (_, rest) => some rest
  | none => none

/-- Positional matcher for the literal `rest` (app.py line 156). -/
def matchRestLit (s : List Char) : Option (List Char) :=
  if "rest".data.isPrefixOf s then some (s.drop 4) else none

/-- Positional matcher for whitespace runs, `\s+` (app.py line 81). -/
def matchWSRun (s : List Char) : Option (List Char) :=
  let w := runLen isWS s
  if 0 < w then some (s.drop w) else none

/-- Positional matcher for `(\d{3})\s*\([^)]+\)` (app.py line 125), returning
group 1 and the text after the match. -/
def matchRoomParen (s : List Char) : Option (List Char × List Char) :=
  match take3digits s with
  | none => none
  | some (room, s1) =>
    match s1.dropWhile isWS with
    | '(' :: s3 =>
      let inner := s3.takeWhile (· ≠ ')')
      if inner.isEmpty then none
      else
        match s3.drop inner.length with
        | ')' :: s4 => some (room, s4)
        | _ => none
    | _ => none

/-- Embedding of `re.search(r'(\d{3})\s*\([^)]+\)', entry_text)` (app.py
line 125): first match left to right, returning group 1 and
`entry_text[match.end():]`. -/
def searchRoomParen : List Char → Option (List Char × List Char)
  | [] => none
  | c :: rest =>
    match matchRoomParen (c :: rest) with
    | some r => some r
    | none => searchRoomParen rest

/-- One duty assignment, the dict built at app.py lines 90–97 (and the
analogous dicts of Methods 2 and 3). -/
structure DutyRecord where
  date : String
  time : String
  course : String
  title : String
  room : String
  invigilators : List String
deriving DecidableEq, Repr

/-- Build a `DutyRecord` from character lists. -/
def mkDuty (date time course title room : List Char) (invs : List (List Char)) : DutyRecord :=
  { date := date.asString, time := time.asString, course := course.asString,
    title := title.asString, room := room.asString,
    invigilators := invs.map List.asString }

/-- The fixed exclusion set of program abbreviations (app.py line 168). -/
def exclCodes : List (List Char) :=
  ["BBA", "CSE", "ENG", "TEX", "BTE", "EEE", "CEN", "LLB", "JRN", "BFT",
   "LLM", "MJR", "ENF"].map String.data

/-- Embedding of `re.match(r'^(BBA|...|ENF)$', code, re.IGNORECASE)`: an exact
case-insensitive match of the whole token (Python `$` also accepts one
trailing newline). -/
def matchesExcl (code : List Char) : Bool :=
  exclCodes.any (fun e => pyUpperL code == e || pyUpperL code == e ++ ['\n'])

/-- The validation loop of `extract_invigilator_codes` (app.py lines 163–169):
keep tokens of length at least two that are not excluded, uppercased. -/
def filterValidCodes : List (List Char) → List (List Char)
  | [] => []
  | code :: rest =>
    if 2 ≤ code.length then
      if matchesExcl code then filterValidCodes rest
      else pyUpperL code :: filterValidCodes rest
    else filterValidCodes rest

/-- Embedding of `extract_invigilator_codes` (app.py lines 143–171). -/
def extract_invigilator_codes (text : List Char) : List (List Char) :=
  if text.isEmpty then []
  else
    let t := pyStrip text
    let t := subGen matchLongId [] t
    let t := subGen matchProgCode [] t
    let t := subGen matchCapacity [] t
    let t := subGen match3dig [] t
    let t := subGen matchRestLit [] t
    filterValidCodes (scanBnd matchCodeTok false t)

/-- Whitespace normalisation `re.sub(r'\s+', ' ', entry_text).strip()`
(app.py line 81). -/
def cleanEntry (e : List Char) : List Char := pyStrip (subGen matchWSRun [' '] e)

/-- Strategy A / Method 1 (app.py lines 83–97): one record per explicit
room-pattern match whose extracted invigilator list is non-empty. -/
def stratA (date time course title : List Char) (entry : List Char) : List DutyRecord :=
  (scanGen matchRoomPat entry).foldl
    (fun duties p =>
      let invs := extract_invigilator_codes p.2
      if !invs.isEmpty then duties ++ [mkDuty date time course title p.1 invs]
      else duties) []

/-- The candidate rooms of Method 2, `re.findall(r'\b(\d{3})\b', entry_text)`
(app.py line 102). -/
def stratBrooms (entry : List Char) : List (List Char) := scanBnd matchRoomTok false entry

/-- The residual invigilator text of Method 2 (app.py lines 103–108). -/
def stratBtext (entry : List Char) : List Char :=
  subGen matchLongId [] (subGen matchRoomInfo [' '] (subGen matchProgParen [] entry))

/-- Strategy B / Method 2 (app.py lines 100–121): one record per candidate
room, all sharing one extracted invigilator list. -/
def stratB (date time course title : List Char) (entry : List Char) : List DutyRecord :=
  let invs := extract_invigilator_codes (stratBtext entry)
  (stratBrooms entry).map (fun room => mkDuty date time course title room invs)

/-- Strategy C / Method 3 (app.py lines 124–139): first room-parenthesis
occurrence, codes extracted from the suffix after it. -/
def stratC (date time course title : List Char) (entry : List Char) : List DutyRecord :=
  match searchRoomParen entry with
  | some (room, afterRoom) =>
    [mkDuty date time course title room (extract_invigilator_codes afterRoom)]
  | none => []

/-- Embedding of `parse_room_assignments` (app.py lines 76–141): the duties
list is accumulated by Method 1, extended by Method 2 only if still empty,
and by Method 3 only if still empty after that. -/
def parse_room_assignments (course_code course_title entry_text date time : List Char) :
    List DutyRecord :=
  let entry := cleanEntry entry_text
  let duties := stratA date time course_code course_title entry
  let duties :=
    if duties.isEmpty then duties ++ stratB date time course_code course_title entry
    else duties
  if duties.isEmpty then duties ++ stratC date time course_code course_title entry
  else duties

/-- Boilerplate line test (app.py line 18). -/
def boilerplateTest (line : List Char) : Bool :=
  containsSub "Port City International University".data line ||
    containsSub "Dean, Faculty".data line || containsSub "Updated on".data line

/-- Table-header/separator line test (app.py line 31). -/
def headerSepTest (line : List Char) : Bool :=
  ["Course Code", "Course Title", "Program", "Room", "ID No", "Invigilator",
   "---", "Rest=", "Page |"].any (fun h => containsSub h.data line)

/-- Inner-loop separator test (app.py line 61). -/
def innerSepTest (line : List Char) : Bool :=
  ["---", "Course Code", "Port City International", "Page |"].any
    (fun sep => containsSub sep.data line)

/-- Block assembly, the inner `while` loop of `parse_schedule` (app.py lines
50–65): absorb stripped lines into the entry text until another course line,
a `Date:` line or a separator; return the full entry and the unconsumed
lines. -/
def collectBlock : List Char → List (List Char) → List Char × List (List Char)
  | acc, [] => (acc, [])
  | acc, l :: ls =>
    let nl := pyStrip l
    if nl.isEmpty then collectBlock acc ls
    else if courseStartTest nl || containsSub "Date:".data nl then (acc, l :: ls)
    else if innerSepTest nl then (acc, l :: ls)
    else collectBlock (acc ++ ' ' :: nl) ls

/-- Python truthiness of the `current_date`/`current_time` variables: `None`
and the empty string are falsy. -/
def pyTruthy : Option (List Char) → Bool
  | none => false
  | some s => !s.isEmpty

/-- The course-title computation (app.py lines 42–43).  The fallback
`remaining_text.split()[0]` is a partial access, modelled as `Option`: `none`
means the Python code would raise `IndexError` there. -/
def computeTitle (remaining : List Char) : Option (List Char) :=
  match titleScan [] remaining with
  | some t => some (pyStrip t)
  | none =>
    if !remaining.isEmpty then (splitWS remaining).head?
    else some "Unknown".data

/-- The outer `while` loop of `parse_schedule` (app.py lines 14–72), with the
date/time context threaded explicitly.  The result is `none` exactly when an
unguarded partial access inside the loop would raise.  Recursion is on a fuel
bound; the course branch continues at the lines handed back by
`collectBlock`, which by `collectBlock_snd_length_le` are fewer than the
lines consumed, so the initial fuel `length + 1` supplied by `parseLines` is
never exhausted. -/
def parseLinesAux :
    Nat → List (List Char) → Option (List Char) → Option (List Char) →
      Option (List DutyRecord)
  | 0, _, _, _ => some []
  | _ + 1, [], _, _ => some []
  | fuel + 1, l :: ls, curD, curT =>
    let line := pyStrip l
    if line.isEmpty || boilerplateTest line then parseLinesAux fuel ls curD curT
    else
      match dateTimeSearch line with
      | some (g1, g2) => parseLinesAux fuel ls (some (pyStrip g1)) (some (pyStrip g2))
      | none =>
        if headerSepTest line then parseLinesAux fuel ls curD curT
        else
          match courseMatch line with
          | some (g1, g2) =>
            if pyTruthy curD && pyTruthy curT then
              let remaining := pyStrip g2
              match computeTitle remaining with
              | none => none
              | some title =>
                let cb := collectBlock remaining ls
                match parseLinesAux fuel cb.2 curD curT with
                | none => none
                | some ds =>
                  some (parse_room_assignments (pyStrip g1) title cb.1
                    (curD.getD []) (curT.getD []) ++ ds)
            else parseLinesAux fuel ls curD curT
          | none => parseLinesAux fuel ls curD curT

/-- The outer loop at its canonical fuel. -/
def parseLines (lines : List (List Char)) (curD curT : Option (List Char)) :
    Option (List DutyRecord) :=
  parseLinesAux (lines.length + 1) lines curD curT

/-- Embedding of `parse_schedule` (app.py lines 6–74). -/
def parse_schedule (text : String) : Option (List DutyRecord) :=
  parseLines (splitNL text.data) none none

/-- The inner loop of `find_invigilator_duties` (app.py lines 178–181): scan
the invigilator list, stopping at the first case-insensitive match. -/
def hasCodeLoop : List String → String → Bool
  | [], _ => false
  | inv :: rest, codeU => if pyUpperS inv = codeU then true else hasCodeLoop rest codeU

/-- Embedding of `find_invigilator_duties` (app.py lines 173–182). -/
def find_invigilator_duties : List DutyRecord → String → List DutyRecord
  | [], _ => []
  | d :: ds, code =>
    if hasCodeLoop d.invigilators (pyUpperS code) then
      d :: find_invigilator_duties ds code
    else find_invigilator_duties ds code

/-! ## Helper lemmas -/

/-- Justification of the outer loop's fuel bound: block assembly never hands
back more lines than it was given, so the loop's line cursor strictly
advances on every iteration. -/
theorem collectBlock_snd_length_le (acc : List Char) (ls : List (List Char)) :
    (collectBlock acc ls).2.length ≤ ls.length := by
  induction ls generalizing acc with
  | nil => simp [collectBlock]
  | cons l ls ih =>
    simp only [collectBlock]
    split
    · exact (ih acc).trans (Nat.le_succ _)
    · split
      · exact Nat.le_refl _
      · split
        · exact Nat.le_refl _
        · exact (ih _).trans (Nat.le_succ _)

theorem lowerC_toNat_bounds (c : Char) (h : isLowerC c = true) :
    97 ≤ c.toNat ∧ c.toNat ≤ 122 := by
  simp only [isLowerC, Bool.and_eq_true, decide_eq_true_eq] at h
  obtain ⟨h1, h2⟩ := h
  rw [Char.le_def] at h1 h2
  exact ⟨h1, h2⟩

theorem isLowerC_pyUpperC (c : Char) : isLowerC (pyUpperC c) = false := by
  unfold pyUpperC
  by_cases h : isLowerC c
  · obtain ⟨h1, h2⟩ := lowerC_toNat_bounds c h
    simp only [h, if_true]
    set n := c.toNat with hn
    interval_cases n <;> decide
  · simp [h]

theorem pyUpperC_idem (c : Char) : pyUpperC (pyUpperC c) = pyUpperC c := by
  conv_lhs => rw [pyUpperC]
  rw [isLowerC_pyUpperC]
  simp

theorem pyUpperL_idem (s : List Char) : pyUpperL (pyUpperL s) = pyUpperL s := by
  simp [pyUpperL, List.map_map, Function.comp_def, pyUpperC_idem]

theorem pyUpperL_length (s : List Char) : (pyUpperL s).length = s.length := by
  simp [pyUpperL]

theorem data_asString (l : List Char) : (List.asString l).data = l := rfl

theorem asString_eq_empty_iff (l : List Char) : List.asString l = "" ↔ l = [] := by
  constructor
  · intro h
    have := congrArg String.data h
    simpa [data_asString] using this
  · intro h; subst h; rfl

theorem dropWhile_head_false (p : Char → Bool) :
    ∀ (l : List Char) c t, l.dropWhile p = c :: t → p c = false := by
  intro l
  induction l with
  | nil => intro c t h; simp [List.dropWhile] at h
  | cons a l ih =>
    intro c t h
    by_cases hp : p a
    · rw [List.dropWhile_cons_of_pos hp] at h
      exact ih c t h
    · rw [List.dropWhile_cons_of_neg hp] at h
      cases h
      simpa using hp

theorem pyStrip_eq_nil_of_all_ws (s : List Char) (h : ∀ c ∈ s, isWS c = true) :
    pyStrip s = [] := by
  unfold pyStrip
  have h1 : s.dropWhile isWS = [] := by
    rw [List.dropWhile_eq_nil_iff]
    exact fun c hc => h c hc
  simp [h1]

theorem pyStrip_cons_ne_nil (c : Char) (l : List Char) (hc : isWS c = false) :
    pyStrip (c :: l) ≠ [] := by
  unfold pyStrip
  intro h
  rw [List.dropWhile_cons_of_neg (by simp [hc])] at h
  have h2 : (c :: l).reverse.dropWhile isWS = [] := by
    cases he : (c :: l).reverse.dropWhile isWS with
    | nil => rfl
    | cons a t => rw [he] at h; simp at h
  rw [List.dropWhile_eq_nil_iff] at h2
  have : isWS c = true := h2 c (by simp)
  rw [hc] at this
  cases this

theorem pyStrip_ne_nil_has_non_ws (s : List Char) (h : pyStrip s ≠ []) :
    ∃ c ∈ pyStrip s, isWS c = false := by
  cases he : (s.dropWhile isWS).reverse.dropWhile isWS with
  | nil =>
    exfalso
    apply h
    unfold pyStrip
    rw [he]
    rfl
  | cons a t =>
    refine ⟨a, ?_, dropWhile_head_false isWS _ a t he⟩
    show a ∈ pyStrip s
    unfold pyStrip
    rw [he]
    simp

theorem splitWSAux_ne_nil (l : List Char) :
    ∀ acc : List Char, (∃ c ∈ l, isWS c = false) ∨ acc ≠ [] →
      splitWSAux acc l ≠ [] := by
  induction l with
  | nil =>
    intro acc h
    rcases h with ⟨c, hc, _⟩ | h
    · simp at hc
    · simp [splitWSAux, h]
  | cons a l ih =>
    intro acc h
    by_cases ha : isWS a
    · by_cases hacc : acc.isEmpty
      · simp only [splitWSAux, ha, if_true, hacc, if_true]
        apply ih
        left
        rcases h with ⟨c, hc, hcw⟩ | h
        · rcases List.mem_cons.mp hc with rfl | hc
          · rw [ha] at hcw; cases hcw
          · exact ⟨c, hc, hcw⟩
        · exact absurd (List.isEmpty_iff.mp hacc) h
      · simp [splitWSAux, ha, hacc]
    · rw [splitWSAux, if_neg ha]
      apply ih
      right
      simp

theorem splitWS_ne_nil_of_non_ws (l : List Char) (h : ∃ c ∈ l, isWS c = false) :
    splitWS l ≠ [] :=
  splitWSAux_ne_nil l [] (Or.inl h)

theorem computeTitle_pyStrip_isSome (s : List Char) :
    (computeTitle (pyStrip s)).isSome := by
  unfold computeTitle
  cases ht : titleScan [] (pyStrip s) with
  | some t => simp
  | none =>
    by_cases he : (pyStrip s).isEmpty
    · simp [he]
    · have hne : pyStrip s ≠ [] := by simpa [List.isEmpty_iff] using he
      obtain ⟨c, hc, hcw⟩ := pyStrip_ne_nil_has_non_ws s hne
      have hsw : splitWS (pyStrip s) ≠ [] :=
        splitWS_ne_nil_of_non_ws _ ⟨c, hc, hcw⟩
      simp only [he, Bool.not_false, if_true]
      cases hsp : splitWS (pyStrip s) with
      | nil => exact absurd hsp hsw
      | cons w ws => simp

theorem scanGenAux_mem {α : Type} {m : List Char → Option (α × List Char)} {Q : α → Prop}
    (hm : ∀ s p, m s = some p → Q p.1) :
    ∀ fuel s a, a ∈ scanGenAux m fuel s → Q a := by
  intro fuel
  induction fuel with
  | zero => intro s a ha; simp [scanGenAux] at ha
  | succ fuel ih =>
    intro s a ha
    cases s with
    | nil =>
      simp only [scanGenAux] at ha
      cases hm0 : m [] with
      | none => rw [hm0] at ha; simp at ha
      | some p =>
        rw [hm0] at ha
        simp at ha
        subst ha
        exact hm [] p hm0
    | cons c rest =>
      simp only [scanGenAux] at ha
      cases hmc : m (c :: rest) with
      | none => rw [hmc] at ha; exact ih rest a ha
      | some p =>
        obtain ⟨a0, after⟩ := p
        rw [hmc] at ha
        simp only [List.mem_cons] at ha
        rcases ha with rfl | ha2
        · exact hm _ _ hmc
        · by_cases hlt : after.length < (c :: rest).length
          · rw [if_pos hlt] at ha2; exact ih after a ha2
          · rw [if_neg hlt] at ha2; exact ih rest a ha2

theorem scanBndAux_mem {α : Type} {m : Bool → List Char → Option (α × Bool × List Char)}
    {Q : α → Prop} (hm : ∀ pw s p, m pw s = some p → Q p.1) :
    ∀ fuel pw s a, a ∈ scanBndAux m fuel pw s → Q a := by
  intro fuel
  induction fuel with
  | zero => intro pw s a ha; simp [scanBndAux] at ha
  | succ fuel ih =>
    intro pw s a ha
    cases s with
    | nil => simp [scanBndAux] at ha
    | cons c rest =>
      simp only [scanBndAux] at ha
      cases hmc : m pw (c :: rest) with
      | none => rw [hmc] at ha; exact ih _ rest a ha
      | some p =>
        obtain ⟨a0, lastW, after⟩ := p
        rw [hmc] at ha
        simp only [List.mem_cons] at ha
        rcases ha with rfl | ha2
        · exact hm _ _ _ hmc
        · by_cases hlt : after.length < (c :: rest).length
          · rw [if_pos hlt] at ha2; exact ih _ after a ha2
          · rw [if_neg hlt] at ha2; exact ih _ rest a ha2

theorem take3digits_length (s r rest : List Char) (h : take3digits s = some (r, rest)) :
    r.length = 3 := by
  unfold take3digits at h
  split at h
  · split at h
    · cases h; rfl
    · cases h
  · cases h

theorem matchRoomPat_room_length (s : List Char) (p : (List Char × List Char) × List Char)
    (h : matchRoomPat s = some p) : p.1.1.length = 3 := by
  unfold matchRoomPat at h
  split at h
  · cases h
  · rename_i room s1 heq
    split at h
    · dsimp only at h
      split at h
      · cases h
      · split at h
        · split at h
          · split at h
            · split at h
              · cases h
                exact take3digits_length s room _ heq
              · cases h
            · cases h
          · cases h
        · cases h
    · cases h

theorem matchRoomTok_room_length (pw : Bool) (s : List Char)
    (p : List Char × Bool × List Char) (h : matchRoomTok pw s = some p) :
    p.1.length = 3 := by
  unfold matchRoomTok at h
  split at h
  · cases h
  · cases ht : take3digits s with
    | none => rw [ht] at h; cases h
    | some q =>
      obtain ⟨room, rest⟩ := q
      rw [ht] at h
      have hlen := take3digits_length s room rest ht
      cases rest with
      | nil => cases h; exact hlen
      | cons c rest2 =>
        dsimp only at h
        split at h
        · cases h
        · cases h; exact hlen

theorem matchRoomParen_room_length (s : List Char) (p : List Char × List Char)
    (h : matchRoomParen s = some p) : p.1.length = 3 := by
  unfold matchRoomParen at h
  split at h
  · cases h
  · rename_i room s1 heq
    split at h
    · dsimp only at h
      split at h
      · cases h
      · split at h
        · cases h
          exact take3digits_length s room _ heq
        · cases h
    · cases h

theorem searchRoomParen_room_length :
    ∀ (s : List Char) (p : List Char × List Char), searchRoomParen s = some p →
      p.1.length = 3 := by
  intro s
  induction s with
  | nil => intro p h; simp [searchRoomParen] at h
  | cons c rest ih =>
    intro p h
    simp only [searchRoomParen] at h
    cases hm : matchRoomParen (c :: rest) with
    | some q => rw [hm] at h; cases h; exact matchRoomParen_room_length _ _ hm
    | none => rw [hm] at h; exact ih p h

theorem filterValidCodes_mem :
    ∀ (l : List (List Char)) (c : List Char), c ∈ filterValidCodes l →
      ∃ code ∈ l, c = pyUpperL code ∧ 2 ≤ code.length ∧ matchesExcl code = false := by
  intro l
  induction l with
  | nil => intro c hc; simp [filterValidCodes] at hc
  | cons code l ih =>
    intro c hc
    simp only [filterValidCodes] at hc
    by_cases h2 : 2 ≤ code.length
    · rw [if_pos h2] at hc
      by_cases hx : matchesExcl code
      · rw [if_pos hx] at hc
        obtain ⟨code', hm, hrest⟩ := ih c hc
        exact ⟨code', List.mem_cons_of_mem _ hm, hrest⟩
      · rw [if_neg hx] at hc
        rcases List.mem_cons.mp hc with rfl | hc2
        · exact ⟨code, List.mem_cons_self _ _, rfl, h2, by simpa using hx⟩
        · obtain ⟨code', hm, hrest⟩ := ih c hc2
          exact ⟨code', List.mem_cons_of_mem _ hm, hrest⟩
    · rw [if_neg h2] at hc
      obtain ⟨code', hm, hrest⟩ := ih c hc
      exact ⟨code', List.mem_cons_of_mem _ hm, hrest⟩

theorem extract_mem (t c : List Char) (hc : c ∈ extract_invigilator_codes t) :
    ∃ code, c = pyUpperL code ∧ 2 ≤ code.length ∧ matchesExcl code = false := by
  unfold extract_invigilator_codes at hc
  split at hc
  · simp at hc
  · dsimp only at hc
    obtain ⟨code, _, h⟩ := filterValidCodes_mem _ c hc
    exact ⟨code, h⟩

theorem extract_upper (t c : List Char) (hc : c ∈ extract_invigilator_codes t) :
    pyUpperL c = c := by
  obtain ⟨code, rfl, _, _⟩ := extract_mem t c hc
  exact pyUpperL_idem code

theorem foldl_filterMap_duties (d t cc ct : List Char)
    (l : List (List Char × List Char)) :
    ∀ acc : List DutyRecord,
      l.foldl (fun duties p =>
        if !(extract_invigilator_codes p.2).isEmpty then
          duties ++ [mkDuty d t cc ct p.1 (extract_invigilator_codes p.2)]
        else duties) acc
      = acc ++ l.filterMap (fun p =>
          if (extract_invigilator_codes p.2).isEmpty then none
          else some (mkDuty d t cc ct p.1 (extract_invigilator_codes p.2))) := by
  induction l with
  | nil => intro acc; simp
  | cons p l ih =>
    intro acc
    simp only [List.foldl_cons, List.filterMap_cons]
    rw [ih]
    by_cases hp : (extract_invigilator_codes p.2).isEmpty
    · simp [hp]
    · simp [hp]

theorem stratA_eq_filterMap (d t cc ct e : List Char) :
    stratA d t cc ct e = (scanGen matchRoomPat e).filterMap (fun p =>
      if (extract_invigilator_codes p.2).isEmpty then none
      else some (mkDuty d t cc ct p.1 (extract_invigilator_codes p.2))) := by
  unfold stratA
  simpa using foldl_filterMap_duties d t cc ct (scanGen matchRoomPat e) []

theorem runLen_pos_cons (p : Char → Bool) (s : List Char) (h : 0 < runLen p s) :
    ∃ c t, s = c :: t ∧ p c = true := by
  cases s with
  | nil => simp [runLen] at h
  | cons c t =>
    refine ⟨c, t, rfl, ?_⟩
    by_cases hp : p c
    · exact hp
    · simp [runLen, List.takeWhile_cons, hp] at h

theorem isUpperC_not_ws (c : Char) (h : isUpperC c = true) : isWS c = false := by
  by_cases hw : isWS c
  · exfalso
    simp only [isWS, Bool.or_eq_true, decide_eq_true_eq] at hw
    rcases hw with ((((rfl | rfl) | rfl) | rfl) | rfl) | rfl <;> exact absurd h (by decide)
  · simpa using hw

theorem courseMatch_g1_strip_ne_nil (line g1 g2 : List Char)
    (h : courseMatch line = some (g1, g2)) : pyStrip g1 ≠ [] := by
  unfold courseMatch at h
  dsimp only at h
  split at h
  · rename_i ha
    have ha2 : 2 ≤ runLen isUpperC line := by
      simp only [Bool.and_eq_true, decide_eq_true_eq] at ha
      exact ha.1
    obtain ⟨c, tl, hline, hc⟩ := runLen_pos_cons isUpperC line (by omega)
    split at h
    · cases h
    · split at h
      · cases h
      · cases h
        rw [hline, List.take_succ_cons]
        exact pyStrip_cons_ne_nil c _ (isUpperC_not_ws c hc)
  · cases h

theorem pyTruthy_getD_ne_nil (o : Option (List Char)) (h : pyTruthy o = true) :
    o.getD [] ≠ [] := by
  cases o with
  | none => simp [pyTruthy] at h
  | some s =>
    simp only [pyTruthy, Bool.not_eq_true'] at h
    simpa [List.isEmpty_iff] using h

theorem pra_cases (cc ct e d t : List Char) :
    parse_room_assignments cc ct e d t =
      if stratA d t cc ct (cleanEntry e) = [] then
        (if stratB d t cc ct (cleanEntry e) = [] then stratC d t cc ct (cleanEntry e)
         else stratB d t cc ct (cleanEntry e))
      else stratA d t cc ct (cleanEntry e) := by
  unfold parse_room_assignments
  by_cases hA : stratA d t cc ct (cleanEntry e) = []
  · by_cases hB : stratB d t cc ct (cleanEntry e) = []
    · simp [hA, hB]
    · simp [hA, hB, List.isEmpty_iff]
  · simp [hA, List.isEmpty_iff]

theorem parse_room_assignments_mem (cc ct e d t : List Char) (rec : DutyRecord)
    (hrec : rec ∈ parse_room_assignments cc ct e d t) :
    ∃ room invs, room.length = 3 ∧ (∀ c ∈ invs, pyUpperL c = c) ∧
      rec = mkDuty d t cc ct room invs := by
  rw [pra_cases] at hrec
  by_cases hA : stratA d t cc ct (cleanEntry e) = []
  · rw [if_pos hA] at hrec
    by_cases hB : stratB d t cc ct (cleanEntry e) = []
    · rw [if_pos hB] at hrec
      unfold stratC at hrec
      cases hs : searchRoomParen (cleanEntry e) with
      | none => rw [hs] at hrec; simp at hrec
      | some p =>
        obtain ⟨room, afterRoom⟩ := p
        rw [hs] at hrec
        simp only [List.mem_singleton] at hrec
        subst hrec
        exact ⟨room, _, searchRoomParen_room_length _ _ hs,
          fun c hc => extract_upper _ c hc, rfl⟩
    · rw [if_neg hB] at hrec
      unfold stratB at hrec
      dsimp only at hrec
      obtain ⟨room, hroom, hrec⟩ := List.mem_map.mp hrec
      refine ⟨room, _, ?_, fun c hc => extract_upper _ c hc, hrec.symm⟩
      exact @scanBndAux_mem _ _ (fun r => r.length = 3)
        (fun pw s p hp => matchRoomTok_room_length pw s p hp) _ _ _ room hroom
  · rw [if_neg hA] at hrec
    rw [stratA_eq_filterMap] at hrec
    obtain ⟨p, hp, hrec⟩ := List.mem_filterMap.mp hrec
    by_cases hE : (extract_invigilator_codes p.2).isEmpty
    · rw [if_pos hE] at hrec; cases hrec
    · rw [if_neg hE] at hrec
      cases hrec
      refine ⟨p.1, extract_invigilator_codes p.2, ?_,
        fun c hc => extract_upper _ c hc, rfl⟩
      exact @scanGenAux_mem _ _ (fun q => q.1.length = 3)
        (fun s q hq => matchRoomPat_room_length s q hq) _ _ p hp

theorem parse_room_assignments_fields (cc ct e d t : List Char) (rec : DutyRecord)
    (hcc : cc ≠ []) (hd : d ≠ []) (ht : t ≠ [])
    (hrec : rec ∈ parse_room_assignments cc ct e d t) :
    rec.course ≠ "" ∧ rec.date ≠ "" ∧ rec.time ≠ "" ∧ rec.room ≠ "" ∧
      ∀ inv ∈ rec.invigilators, pyUpperS inv = inv := by
  obtain ⟨room, invs, hlen, hup, rfl⟩ := parse_room_assignments_mem cc ct e d t rec hrec
  refine ⟨?_, ?_, ?_, ?_, ?_⟩
  · show List.asString cc ≠ ""
    simpa [asString_eq_empty_iff] using hcc
  · show List.asString d ≠ ""
    simpa [asString_eq_empty_iff] using hd
  · show List.asString t ≠ ""
    simpa [asString_eq_empty_iff] using ht
  · show List.asString room ≠ ""
    have hr : room ≠ [] := by intro h; rw [h] at hlen; simp at hlen
    simpa [asString_eq_empty_iff] using hr
  · intro inv hinv
    obtain ⟨c, hc, rfl⟩ := List.mem_map.mp hinv
    show (pyUpperL (List.asString c).data).asString = List.asString c
    rw [data_asString, hup c hc]

theorem parseLinesAux_no_date :
    ∀ fuel (lines : List (List Char)),
      (∀ l ∈ lines, dateTimeSearch (pyStrip l) = none) →
      parseLinesAux fuel lines none none = some [] := by
  intro fuel
  induction fuel with
  | zero => intro lines _; rfl
  | succ fuel ih =>
    intro lines h
    cases lines with
    | nil => rfl
    | cons l ls =>
      have hl : dateTimeSearch (pyStrip l) = none := h l (by simp)
      have hls : ∀ x ∈ ls, dateTimeSearch (pyStrip x) = none :=
        fun x hx => h x (List.mem_cons_of_mem _ hx)
      simp only [parseLinesAux]
      split
      · exact ih ls hls
      · simp only [hl]
        split
        · exact ih ls hls
        · split
          · simp only [pyTruthy, Bool.and_self]
            exact ih ls hls
          · exact ih ls hls

theorem parseLinesAux_isSome :
    ∀ fuel lines curD curT, (parseLinesAux fuel lines curD curT).isSome := by
  intro fuel
  induction fuel with
  | zero => intro lines curD curT; rfl
  | succ fuel ih =>
    intro lines curD curT
    cases lines with
    | nil => rfl
    | cons l ls =>
      simp only [parseLinesAux]
      split
      · exact ih ls curD curT
      · split
        · exact ih ls _ _
        · split
          · exact ih ls curD curT
          · split
            · rename_i g1 g2 hcm
              split
              · cases hT : computeTitle (pyStrip g2) with
                | none =>
                  exfalso
                  have hs := computeTitle_pyStrip_isSome g2
                  rw [hT] at hs
                  simp at hs
                | some title =>
                  simp only [hT]
                  cases hP : parseLinesAux fuel (collectBlock (pyStrip g2) ls).2 curD curT with
                  | none =>
                    exfalso
                    have hs := ih (collectBlock (pyStrip g2) ls).2 curD curT
                    rw [hP] at hs
                    simp at hs
                  | some ds => simp only [hP, Option.isSome_some]
              · exact ih ls curD curT
            · exact ih ls curD curT

theorem parseLinesAux_fields :
    ∀ fuel lines curD curT ds, parseLinesAux fuel lines curD curT = some ds →
      ∀ rec ∈ ds,
        rec.course ≠ "" ∧ rec.date ≠ "" ∧ rec.time ≠ "" ∧ rec.room ≠ "" ∧
          ∀ inv ∈ rec.invigilators, pyUpperS inv = inv := by
  intro fuel
  induction fuel with
  | zero =>
    intro lines curD curT ds h rec hrec
    cases h
    simp at hrec
  | succ fuel ih =>
    intro lines curD curT ds h rec hrec
    cases lines with
    | nil => cases h; simp at hrec
    | cons l ls =>
      simp only [parseLinesAux] at h
      split at h
      · exact ih ls curD curT ds h rec hrec
      · split at h
        · exact ih ls _ _ ds h rec hrec
        · split at h
          · exact ih ls curD curT ds h rec hrec
          · split at h
            · rename_i g1 g2 hcm
              split at h
              · rename_i htru
                split at h
                · cases h
                · rename_i title hT
                  split at h
                  · cases h
                  · rename_i ds' hP
                    cases h
                    rcases List.mem_append.mp hrec with hL | hR
                    · refine parse_room_assignments_fields _ _ _ _ _ rec
                        (courseMatch_g1_strip_ne_nil _ _ _ hcm) ?_ ?_ hL
                      · exact pyTruthy_getD_ne_nil curD (by
                          simp only [Bool.and_eq_true] at htru; exact htru.1)
                      · exact pyTruthy_getD_ne_nil curT (by
                          simp only [Bool.and_eq_true] at htru; exact htru.2)
                    · exact ih _ curD curT ds' hP rec hR
              · exact ih ls curD curT ds h rec hrec
            · exact ih ls curD curT ds h rec hrec

theorem parseLinesAux_irrel :
    ∀ f1 f2 (lines : List (List Char)) curD curT, lines.length < f1 →
      lines.length < f2 →
      parseLinesAux f1 lines curD curT = parseLinesAux f2 lines curD curT := by
  intro f1
  induction f1 with
  | zero => intro f2 lines curD curT h1 _; exact absurd h1 (Nat.not_lt_zero _)
  | succ f1 ih =>
    intro f2 lines curD curT h1 h2
    cases f2 with
    | zero => exact absurd h2 (Nat.not_lt_zero _)
    | succ f2 =>
      cases lines with
      | nil => rfl
      | cons l ls =>
        have hls1 : ls.length < f1 := Nat.lt_of_succ_lt_succ h1
        have hls2 : ls.length < f2 := Nat.lt_of_succ_lt_succ h2
        simp only [parseLinesAux]
        split
        · exact ih f2 ls curD curT hls1 hls2
        · split
          · exact ih f2 ls _ _ hls1 hls2
          · split
            · exact ih f2 ls curD curT hls1 hls2
            · split
              · rename_i g1 g2 hcm
                split
                · have hcb1 : (collectBlock (pyStrip g2) ls).2.length < f1 :=
                    Nat.lt_of_le_of_lt (collectBlock_snd_length_le _ _) hls1
                  have hcb2 : (collectBlock (pyStrip g2) ls).2.length < f2 :=
                    Nat.lt_of_le_of_lt (collectBlock_snd_length_le _ _) hls2
                  rw [ih f2 (collectBlock (pyStrip g2) ls).2 curD curT hcb1 hcb2]
                · exact ih f2 ls curD curT hls1 hls2
              · exact ih f2 ls curD curT hls1 hls2

/-! ## Theorems about the claims -/

/-- C1 (counterexample): on the course block `"308 (20) ABCDE"` the Strategy A
room pattern has exactly one match, capturing trailing text `"ABCDE"`, yet
Strategy A emits zero records because the Code Extractor returns an empty list
for that text and app.py line 89 (`if invigilators:`) skips the match — so
Strategy A does not yield one record per match regardless of whether the
extracted list is empty. -/
theorem stratA_match_without_codes_yields_no_record :
    scanGen matchRoomPat (cleanEntry "308 (20) ABCDE".data) =
        [("308".data, "ABCDE".data)] ∧
      extract_invigilator_codes "ABCDE".data = [] ∧
      stratA "01/02/2024".data "(09:00am)".data "CSE 101".data "Intro".data
        (cleanEntry "308 (20) ABCDE".data) = [] := by
  decide

/-- C1 (amended): Strategy A yields exactly one DutyRecord per room-pattern
match *whose extracted invigilator list is non-empty*, with that list as the
record's invigilators; matches whose Code Extractor result is empty yield no
record. -/
theorem stratA_one_record_per_nonempty_match (date time course title e : List Char) :
    stratA date time course title e = (scanGen matchRoomPat e).filterMap (fun p =>
      if (extract_invigilator_codes p.2).isEmpty then none
      else some (mkDuty date time course title p.1 (extract_invigilator_codes p.2))) :=
  stratA_eq_filterMap date time course title e

/-- C2: `parse_schedule` on the exact input
`"Date: 01/02/2024 Time: (09:00am - 12:00pm)\nCSE 101 Intro to CS 308 (20)3509803-822 ZBS+MNJ"`
returns exactly one DutyRecord with date `01/02/2024`, time
`(09:00am - 12:00pm)`, course `CSE 101`, room `308` and invigilators
`["ZBS", "MNJ"]` in that order. -/
theorem parse_schedule_end_to_end :
    parse_schedule
        "Date: 01/02/2024 Time: (09:00am - 12:00pm)\nCSE 101 Intro to CS 308 (20)3509803-822 ZBS+MNJ" =
      some [⟨"01/02/2024", "(09:00am - 12:00pm)", "CSE 101", "Intro to CS", "308",
        ["ZBS", "MNJ"]⟩] := by
  decide

/-- C3: a course block whose Strategy A pass yields nothing, whose residual
text yields no invigilator codes, but which contains at least one detected
room number, still yields one DutyRecord per detected room with an empty
invigilator list — the block is not dropped. -/
theorem room_without_codes_still_yields_record (cc ct e d t : List Char)
    (hA : stratA d t cc ct (cleanEntry e) = [])
    (hshared : extract_invigilator_codes (stratBtext (cleanEntry e)) = [])
    (hrooms : stratBrooms (cleanEntry e) ≠ []) :
    parse_room_assignments cc ct e d t =
        (stratBrooms (cleanEntry e)).map (fun room => mkDuty d t cc ct room []) ∧
      parse_room_assignments cc ct e d t ≠ [] := by
  have hB : stratB d t cc ct (cleanEntry e) =
      (stratBrooms (cleanEntry e)).map (fun room => mkDuty d t cc ct room []) := by
    unfold stratB
    rw [hshared]
  have hBne : stratB d t cc ct (cleanEntry e) ≠ [] := by
    rw [hB]
    simpa using hrooms
  rw [pra_cases, if_pos hA, if_neg hBne]
  exact ⟨hB, hBne⟩

/-- C3 (witness): the block `"308 (20)"` has a room but no recoverable
invigilator text, and still yields one record with an empty invigilator
list. -/
theorem room_without_codes_still_yields_record_witness :
    parse_room_assignments "CSE 101".data "Intro".data "308 (20)".data
          "01/02/2024".data "(09:00am)".data =
        (stratBrooms (cleanEntry "308 (20)".data)).map
          (fun room => mkDuty "01/02/2024".data "(09:00am)".data "CSE 101".data
            "Intro".data room []) ∧
      parse_room_assignments "CSE 101".data "Intro".data "308 (20)".data
          "01/02/2024".data "(09:00am)".data ≠ [] :=
  room_without_codes_still_yields_record _ _ _ _ _ (by decide) (by decide) (by decide)

/-- C4: every DutyRecord returned by `parse_schedule` has non-empty course,
date, time and room fields, and every invigilator string in it is
upper-cased. -/
theorem parse_schedule_record_invariants (text : String) (ds : List DutyRecord)
    (rec : DutyRecord) (h : parse_schedule text = some ds) (hrec : rec ∈ ds) :
    rec.course ≠ "" ∧ rec.date ≠ "" ∧ rec.time ≠ "" ∧ rec.room ≠ "" ∧
      ∀ inv ∈ rec.invigilators, pyUpperS inv = inv :=
  parseLinesAux_fields _ _ _ _ _ h rec hrec

/-- C4 (witness): the invariants hold for the record parsed from the
end-to-end example input. -/
theorem parse_schedule_record_invariants_witness :
    (⟨"01/02/2024", "(09:00am - 12:00pm)", "CSE 101", "Intro to CS", "308",
        ["ZBS", "MNJ"]⟩ : DutyRecord).course ≠ "" ∧
      (⟨"01/02/2024", "(09:00am - 12:00pm)", "CSE 101", "Intro to CS", "308",
        ["ZBS", "MNJ"]⟩ : DutyRecord).date ≠ "" ∧
      (⟨"01/02/2024", "(09:00am - 12:00pm)", "CSE 101", "Intro to CS", "308",
        ["ZBS", "MNJ"]⟩ : DutyRecord).time ≠ "" ∧
      (⟨"01/02/2024", "(09:00am - 12:00pm)", "CSE 101", "Intro to CS", "308",
        ["ZBS", "MNJ"]⟩ : DutyRecord).room ≠ "" ∧
      ∀ inv ∈ (⟨"01/02/2024", "(09:00am - 12:00pm)", "CSE 101", "Intro to CS", "308",
        ["ZBS", "MNJ"]⟩ : DutyRecord).invigilators, pyUpperS inv = inv :=
  parse_schedule_record_invariants
    "Date: 01/02/2024 Time: (09:00am - 12:00pm)\nCSE 101 Intro to CS 308 (20)3509803-822 ZBS+MNJ"
    [⟨"01/02/2024", "(09:00am - 12:00pm)", "CSE 101", "Intro to CS", "308",
      ["ZBS", "MNJ"]⟩]
    ⟨"01/02/2024", "(09:00am - 12:00pm)", "CSE 101", "Intro to CS", "308",
      ["ZBS", "MNJ"]⟩
    (by decide) (by simp)

/-- C5: the segmenter applies Strategies A, B, C in that fixed order and
returns the result of the first strategy that produces at least one record:
if Strategy A yields records the result is Strategy A's alone, Strategy B is
used only when A yields nothing, and Strategy C only when both A and B yield
nothing. -/
theorem strategy_fallback_order (cc ct e d t : List Char) :
    parse_room_assignments cc ct e d t =
      if stratA d t cc ct (cleanEntry e) = [] then
        (if stratB d t cc ct (cleanEntry e) = [] then stratC d t cc ct (cleanEntry e)
         else stratB d t cc ct (cleanEntry e))
      else stratA d t cc ct (cleanEntry e) :=
  pra_cases cc ct e d t

/-- C6: every string returned by the Code Extractor is upper-cased, has length
at least two, and is not a case-insensitive match of any member of the fixed
exclusion set (its uppercase form is not in the set, so no member of the set,
in any letter case, ever appears in the output). -/
theorem extract_codes_valid (t c : List Char) (hc : c ∈ extract_invigilator_codes t) :
    pyUpperL c = c ∧ 2 ≤ c.length ∧ pyUpperL c ∉ exclCodes := by
  obtain ⟨code, rfl, hlen, hx⟩ := extract_mem t c hc
  refine ⟨pyUpperL_idem code, by rw [pyUpperL_length]; exact hlen, ?_⟩
  rw [pyUpperL_idem]
  intro hmem
  unfold matchesExcl at hx
  rw [List.any_eq_false] at hx
  have hfalse := hx _ hmem
  simp at hfalse

/-- C6 (witness): the lowercase input `"zbs+mnj"` yields the upper-cased,
length-2-or-more, non-excluded code `"ZBS"`. -/
theorem extract_codes_valid_witness :
    "ZBS".data ∈ extract_invigilator_codes "zbs+mnj".data ∧
      (pyUpperL "ZBS".data = "ZBS".data ∧ 2 ≤ "ZBS".data.length ∧
        pyUpperL "ZBS".data ∉ exclCodes) :=
  ⟨by decide, extract_codes_valid "zbs+mnj".data "ZBS".data (by decide)⟩

/-- Helper for C7: the inner break-on-first-match loop is a case-insensitive
membership test. -/
theorem hasCodeLoop_eq_any (l : List String) (u : String) :
    hasCodeLoop l u = l.any (fun inv => pyUpperS inv == u) := by
  induction l with
  | nil => rfl
  | cons inv l ih =>
    simp only [hasCodeLoop, List.any_cons]
    by_cases h : pyUpperS inv = u
    · simp [h]
    · simp [h, ih]

/-- C7: `find_invigilator_duties` returns exactly the records whose
invigilator list contains a case-insensitive match of the queried code,
preserving input order, each matching record exactly once (it is the filter
of the input list by a case-insensitive membership test; in particular a
record with invigilator `"ZBS"` matches the query `"zbs"` since both sides
are compared upper-cased). -/
theorem find_duties_eq_filter (ds : List DutyRecord) (code : String) :
    find_invigilator_duties ds code =
      ds.filter (fun d => d.invigilators.any (fun inv => pyUpperS inv == pyUpperS code)) := by
  induction ds with
  | nil => rfl
  | cons d ds ih =>
    simp only [find_invigilator_duties, List.filter_cons]
    rw [hasCodeLoop_eq_any]
    by_cases h : d.invigilators.any (fun inv => pyUpperS inv == pyUpperS code)
    · simp only [h, if_true]
      rw [ih]
    · simp only [h, Bool.false_eq_true, if_false]
      rw [ih]

/-- C8: when no line of the input matches the Date:/Time: header pattern,
`parse_schedule` returns the empty sequence — course lines seen before any
date/time context are dropped. -/
theorem parse_schedule_no_date_header_empty (text : String)
    (h : ∀ l ∈ splitNL text.data, dateTimeSearch (pyStrip l) = none) :
    parse_schedule text = some [] :=
  parseLinesAux_no_date _ _ h

/-- C8 (witness): a course line with rooms and codes but no date header parses
to the empty list. -/
theorem parse_schedule_no_date_header_empty_witness :
    (∀ l ∈ splitNL "CSE 101 Intro to CS 308 (20) ZBS".data,
        dateTimeSearch (pyStrip l) = none) ∧
      parse_schedule "CSE 101 Intro to CS 308 (20) ZBS" = some [] :=
  ⟨by decide, parse_schedule_no_date_header_empty _ (by decide)⟩

/-- C9: `parse_schedule` never raises on any input: the embedding models the
one unguarded partial access of the loop (taking the first word of the
remaining text, app.py line 43) as an `Option`, and the result is `some` on
every input string — malformed fragments are skipped, never fatal. -/
theorem parse_schedule_never_raises (text : String) : (parse_schedule text).isSome :=
  parseLinesAux_isSome _ _ _ _

/-- C10: the outer parsing loop of `parse_schedule` terminates on every
input: any fuel bound exceeding the number of lines computes the same result
as the canonical one, because the line cursor strictly advances on every
iteration — the inner block-assembly loop (`collectBlock`, whose unconsumed
lines never exceed those it was given, see `collectBlock_snd_length_le`)
always resumes at or past the following line. -/
theorem parse_schedule_loop_terminates (fuel : Nat) (lines : List (List Char))
    (curD curT : Option (List Char)) (h : lines.length < fuel) :
    parseLinesAux fuel lines curD curT = parseLines lines curD curT :=
  parseLinesAux_irrel fuel (lines.length + 1) lines curD curT h (Nat.lt_succ_self _)

/-- C10 (witness): a two-line input is parsed identically under any
sufficient fuel. -/
theorem parse_schedule_loop_terminates_witness :
    (["CSE 101 x 308 (20) ZB".data, "tail".data].length < 7) ∧
      parseLinesAux 7 ["CSE 101 x 308 (20) ZB".data, "tail".data] none none =
        parseLines ["CSE 101 x 308 (20) ZB".data, "tail".data] none none :=
  ⟨by decide, parse_schedule_loop_terminates 7 _ none none (by decide)⟩

end ExamDuty
